import Mathlib

/-!
Verification of the pool allocator in `src/memory_manager.c`.

The C file keeps four globals: `memory_pool` (base address of the pool buffer,
`NULL` before `mem_init`), `pool_size`, and two singly linked lists of
`MemBlock` descriptors (`free_list`, `allocated_list`).  We embed addresses as
natural numbers, with `0` playing the role of the C null pointer (the pool base
returned by `malloc` is always nonzero, and theorems about initialized pools
carry `0 < base`).  A linked list of `MemBlock` nodes becomes a Lean `List`.

The tracking-node `malloc(sizeof(MemBlock))` calls inside `mem_alloc` and
`mem_free` can fail in C; that environment choice is passed in explicitly as a
boolean `ok` argument (`true` = the reservation succeeds).  All other `malloc`
failures in the C file (`mem_init`'s pool and seed-descriptor reservations)
call `exit` and so never yield a state.

The `pthread_mutex_lock`/`pthread_mutex_unlock` calls are modelled separately
as lock-event traces (see `resizeLockTrace` below); the state-transforming
definitions give the sequential functional behaviour of each operation body.
-/

/-- One `MemBlock` descriptor from the C source: a start address and a size in
bytes.  The `next` pointer of the C struct is represented by list structure. -/
structure MemBlock where
  start : Nat
  size : Nat
deriving DecidableEq, Repr

/-- The four globals of `memory_manager.c`.  `memory_pool = none` corresponds
to `memory_pool == NULL` (manager not initialized). -/
structure MMState where
  memory_pool : Option Nat
  pool_size : Nat
  free_list : List MemBlock
  allocated_list : List MemBlock
deriving DecidableEq, Repr

/-- The state before any call: all globals at their static initial values. -/
def initState : MMState := ⟨none, 0, [], []⟩

/-- Pool base address; `0` when uninitialized (C pointer arithmetic on the
`NULL` `memory_pool` compares against address 0). -/
def poolBase (s : MMState) : Nat := s.memory_pool.getD 0

/-- Embedding of `mem_init`: refuses re-initialization, otherwise installs the
pool and seeds the free list with a single block covering it.  `base` is the
address `malloc` returned for the pool buffer. -/
def mem_init (base size : Nat) (s : MMState) : MMState :=
  if s.memory_pool.isSome then s
  else ⟨some base, size, [⟨base, size⟩], []⟩

/-- The first-fit search loop of `mem_alloc` (lines 87-127): find the first
free block with `current->size >= size`; split it in place when strictly
larger, remove it when the fit is exact.  Returns the chosen address and the
updated free list, or `none` when no block fits. -/
def allocLoop (n : Nat) : List MemBlock → Option (Nat × List MemBlock)
  | [] => none
  | b :: rest =>
    if n ≤ b.size then
      if n < b.size then some (b.start, ⟨b.start + n, b.size - n⟩ :: rest)
      else some (b.start, rest)
    else
      match allocLoop n rest with
      | none => none
      | some (p, rest') => some (p, b :: rest')

/-- Embedding of `mem_alloc`.  `ok` tells whether the
`malloc(sizeof(MemBlock))` for the tracking node succeeds; on failure the C
code returns `NULL` before touching either list.  On success the new
descriptor is pushed on the front of the allocated list and the free list is
updated by the first-fit loop. -/
def mem_alloc (n : Nat) (ok : Bool) (s : MMState) : Option Nat × MMState :=
  match s.memory_pool with
  | none => (none, s)
  | some _ =>
    match allocLoop n s.free_list with
    | none => (none, s)
    | some (p, fl) =>
      if ok then
        (some p, { s with free_list := fl, allocated_list := ⟨p, n⟩ :: s.allocated_list })
      else (none, s)

/-- The allocated-list search-and-unlink loop of `mem_free`: find the first
descriptor whose `start` equals the freed pointer and remove it, returning it
together with the remaining list. -/
def removeAlloc (p : Nat) : List MemBlock → Option (MemBlock × List MemBlock)
  | [] => none
  | b :: rest =>
    if b.start = p then some (b, rest)
    else
      match removeAlloc p rest with
      | none => none
      | some (f, rest') => some (f, b :: rest')

/-- Tail of the address-ordered insertion of `mem_free`: the C walk advances
`fcurrent` while `fcurrent->next->start < new_free->start` and then links the
new node after `fcurrent`. -/
def insertTail (nb : MemBlock) : List MemBlock → List MemBlock
  | [] => [nb]
  | b :: rest =>
    if b.start < nb.start then b :: insertTail nb rest
    else nb :: b :: rest

/-- Address-ordered insertion into the free list (`mem_free` lines 185-199):
prepend when the list is empty or the new block starts before the head,
otherwise walk from the head and insert after the last node whose successor
starts before the new block. -/
def insertFree (nb : MemBlock) (l : List MemBlock) : List MemBlock :=
  match l with
  | [] => [nb]
  | b :: rest =>
    if nb.start < b.start then nb :: b :: rest
    else b :: insertTail nb rest

/-- Body of the one-pass coalescing loop of `mem_free` (lines 200-213), with
`b` the block currently examined (`merge_current`): whenever `b`'s end address
equals the next block's start, absorb the next block and re-examine the same
position; otherwise emit `b` and advance. -/
def mergeInto (b : MemBlock) : List MemBlock → List MemBlock
  | [] => [b]
  | b' :: rest =>
    if b.start + b.size = b'.start then mergeInto ⟨b.start, b.size + b'.size⟩ rest
    else b :: mergeInto b' rest

/-- The one-pass coalescing loop of `mem_free`, starting from the head of the
free list. -/
def mergePass : List MemBlock → List MemBlock
  | [] => []
  | b :: rest => mergeInto b rest

/-- Embedding of `mem_free`.  A null pointer is rejected before the lock; a
pointer outside `[memory_pool, memory_pool + pool_size)` is rejected; an
unmatched pointer is rejected.  On a match the descriptor leaves the allocated
list; if the tracking-node reservation for the new free block fails
(`ok = false`) the C code has already unlinked and freed the descriptor and
returns without inserting anything into the free list. -/
def mem_free (p : Nat) (ok : Bool) (s : MMState) : MMState :=
  if p = 0 then s
  else
    if p < poolBase s ∨ poolBase s + s.pool_size ≤ p then s
    else
      match removeAlloc p s.allocated_list with
      | none => s
      | some (blk, al) =>
        if ok then
          { s with allocated_list := al,
                   free_list := mergePass (insertFree ⟨p, blk.size⟩ s.free_list) }
        else
          { s with allocated_list := al }

/-- The allocated-list search of `mem_resize` (no unlinking). -/
def findAlloc (p : Nat) : List MemBlock → Option MemBlock
  | [] => none
  | b :: rest => if b.start = p then some b else findAlloc p rest

/-- Embedding of `mem_resize` (state part).  `ok1` is the environment choice
for the tracking node of the internal `mem_alloc`, `ok2` for the one of the
internal `mem_free`. -/
def mem_resize (p n : Nat) (ok1 ok2 : Bool) (s : MMState) : Option Nat × MMState :=
  if p = 0 then mem_alloc n ok1 s
  else if n = 0 then (none, mem_free p ok2 s)
  else
    match findAlloc p s.allocated_list with
    | none => (none, s)
    | some blk =>
      if n ≤ blk.size then (some p, s)
      else
        match mem_alloc n ok1 s with
        | (none, s1) => (none, s1)
        | (some np, s1) => (some np, mem_free p ok2 s1)

/-- Byte-level effect of `memcpy(new_ptr, ptr, current->size)`: addresses in
`[dst, dst + n)` take the bytes previously stored at `src + offset`. -/
def memcpyBytes (dst src n : Nat) (m : Nat → Nat) : Nat → Nat :=
  fun a => if dst ≤ a ∧ a < dst + n then m (src + (a - dst)) else m a

/-- Embedding of `mem_resize` together with the pool byte contents.  Only the
grow path touches bytes, via the `memcpy` of the old block's size. -/
def mem_resize_mem (p n : Nat) (ok1 ok2 : Bool) (s : MMState) (m : Nat → Nat) :
    Option Nat × MMState × (Nat → Nat) :=
  if p = 0 then
    ((mem_alloc n ok1 s).1, (mem_alloc n ok1 s).2, m)
  else if n = 0 then (none, mem_free p ok2 s, m)
  else
    match findAlloc p s.allocated_list with
    | none => (none, s, m)
    | some blk =>
      if n ≤ blk.size then (some p, s, m)
      else
        match mem_alloc n ok1 s with
        | (none, s1) => (none, s1, m)
        | (some np, s1) => (some np, mem_free p ok2 s1, memcpyBytes np p blk.size m)

/-- Lock events on the single `mem_mutex`. -/
inductive LockEv where
  | acq : LockEv
  | rel : LockEv
deriving DecidableEq, Repr

/-- Scan a lock-event trace with the current hold count; `true` when an
acquire of the (non-recursive, `PTHREAD_MUTEX_INITIALIZER`) mutex happens
while it is already held — the self-deadlock condition. -/
def nestedFrom : Nat → List LockEv → Bool
  | _, [] => false
  | held, LockEv.acq :: r => (decide (0 < held)) || nestedFrom (held + 1) r
  | held, LockEv.rel :: r => nestedFrom (held - 1) r

/-- Whether a trace attempts to re-acquire the mutex while holding it. -/
def hasNested (t : List LockEv) : Bool := nestedFrom 0 t

/-- Lock trace of `mem_init`: the C function contains no
`pthread_mutex_lock`/`unlock` calls at all (the init/destroy calls are
commented out), so its trace is empty. -/
def initLockTrace : List LockEv := []

/-- Lock trace of `mem_alloc`: lock on entry, unlock on each of the three
exits (uninitialized, tracking failure or success, no fitting block). -/
def allocLockTrace (n : Nat) (s : MMState) : List LockEv :=
  match s.memory_pool with
  | none => [LockEv.acq, LockEv.rel]
  | some _ =>
    match allocLoop n s.free_list with
    | none => [LockEv.acq, LockEv.rel]
    | some _ => [LockEv.acq, LockEv.rel]

/-- Lock trace of `mem_free`: the null check precedes the lock; all other
paths lock once and unlock once. -/
def freeLockTrace (p : Nat) (_s : MMState) : List LockEv :=
  if p = 0 then [] else [LockEv.acq, LockEv.rel]

/-- Lock trace of `mem_resize`, following its control flow: the null-pointer
and zero-size delegations happen before the lock; otherwise the mutex is
acquired, and on the grow path `mem_alloc` (and then `mem_free`) are invoked
while it is still held, contributing their own acquires. -/
def resizeLockTrace (p n : Nat) (ok1 : Bool) (s : MMState) : List LockEv :=
  if p = 0 then allocLockTrace n s
  else if n = 0 then freeLockTrace p s
  else
    LockEv.acq ::
      (match findAlloc p s.allocated_list with
       | none => [LockEv.rel]
       | some blk =>
         if n ≤ blk.size then [LockEv.rel]
         else
           allocLockTrace n s ++
             (match mem_alloc n ok1 s with
              | (none, _) => [LockEv.rel]
              | (some _, s1) => freeLockTrace p s1 ++ [LockEv.rel]))

/-- Whether the descriptor `b` covers address `a`. -/
def cov (a : Nat) (b : MemBlock) : Bool :=
  decide (b.start ≤ a) && decide (a < b.start + b.size)

/-- Number of descriptors (free and allocated together) covering address `a`. -/
def coverCount (s : MMState) (a : Nat) : Nat :=
  (s.free_list ++ s.allocated_list).countP (cov a)

/-- Whether address `a` lies inside the pool range. -/
def inPool (s : MMState) (a : Nat) : Prop :=
  poolBase s ≤ a ∧ a < poolBase s + s.pool_size

instance (s : MMState) (a : Nat) : Decidable (inPool s a) := by
  unfold inPool; infer_instance

/-- The partition property of the spec: every pool address is covered by
exactly one descriptor (this is the conjunction of pairwise disjointness of
all free/allocated ranges — no address covered twice — and of their union
being the full pool — every pool address covered, none outside). -/
def partitionHolds (s : MMState) : Prop :=
  ∀ a, coverCount s a = if inPool s a then 1 else 0

/-- Total number of bytes described by a descriptor list. -/
def totalSize (l : List MemBlock) : Nat := (l.map MemBlock.size).sum

/-- States reachable from the pristine state by one `mem_init` with positive
pool size and nonzero pool base followed by any sequence of
`mem_init`/`mem_alloc`/`mem_free`/`mem_resize` calls in which every
tracking-node reservation succeeds. -/
inductive ReachableOk : MMState → Prop
  | init (base size : Nat) (hb : 0 < base) (hs : 0 < size) :
      ReachableOk (mem_init base size initState)
  | reinit (base size : Nat) {s : MMState} (h : ReachableOk s) :
      ReachableOk (mem_init base size s)
  | alloc (n : Nat) {s : MMState} (h : ReachableOk s) :
      ReachableOk (mem_alloc n true s).2
  | free (p : Nat) {s : MMState} (h : ReachableOk s) :
      ReachableOk (mem_free p true s)
  | resize (p n : Nat) {s : MMState} (h : ReachableOk s) :
      ReachableOk (mem_resize p n true true s).2

/-! Concrete states used by claim theorems, built by explicit call sequences
from the pristine state. -/

/-- Pool of 4 bytes at base 1, fully handed out by one `mem_alloc 4`. -/
def fullPool4 : MMState := (mem_alloc 4 true (mem_init 1 4 initState)).2

/-- Pool of 100 bytes at base 1 after `mem_alloc 8` (the allocation at
address 1 that the resize-grow scenario of the spec starts from). -/
def grow8State : MMState := (mem_alloc 8 true (mem_init 1 100 initState)).2

/-- Byte contents used in the resize-grow scenario: address `a` holds the
recognizable value `100 + a`. -/
def patternMem : Nat → Nat := fun a => 100 + a

/-- Pool of 40 bytes at base 1 after `mem_alloc 5`. -/
def small5State : MMState := (mem_alloc 5 true (mem_init 1 40 initState)).2

/-- A reachable state whose free list is `[⟨3, 2⟩, ⟨1, 0⟩]`: the zero-size
descriptor left behind by a zero-size allocation ends up behind a split block
with a higher address.  Built by
`init 4; alloc 0; alloc 4; free 1; free 1; alloc 2`. -/
def displacedZeroState : MMState :=
  (mem_alloc 2 true
    (mem_free 1 true
      (mem_free 1 true
        (mem_alloc 4 true
          (mem_alloc 0 true (mem_init 1 4 initState)).2).2))).2

/-- A reachable state whose free list is the single zero-size descriptor
`[⟨1, 0⟩]`.  Built by `init 4; alloc 0; alloc 4; free 1; free 1; alloc 4`. -/
def zeroHeadState : MMState :=
  (mem_alloc 4 true
    (mem_free 1 true
      (mem_free 1 true
        (mem_alloc 4 true
          (mem_alloc 0 true (mem_init 1 4 initState)).2).2))).2

/-- Pool of 30 bytes at base 1 split into three 10-byte allocations at
addresses 1, 11 and 21. -/
def threeSplitState : MMState :=
  (mem_alloc 10 true (mem_alloc 10 true (mem_alloc 10 true (mem_init 1 30 initState)).2).2).2

/-- Fold a list of pointers through `mem_free` with successful tracking. -/
def freeSeq (ps : List Nat) (s : MMState) : MMState :=
  ps.foldl (fun st q => mem_free q true st) s

/-- Ordering relation that the free list maintains between a block `b` and a
block `c` that comes later in the list: when `c` is nonempty, a nonempty `b`
ends at or before `c`'s start, and an empty `b` starts at or before `c`'s
start.  (Zero-size descriptors left behind by zero-size allocations can be
jumped over by a split, so nothing relates two blocks when the later one is
empty.) -/
def BlockOrd (b c : MemBlock) : Prop :=
  0 < c.size →
    (0 < b.size → b.start + b.size ≤ c.start) ∧ (b.size = 0 → b.start ≤ c.start)

/-- Disjointness of the (half-open) address ranges of two nonempty blocks:
one ends at or before the other starts. -/
def PosDisj (b c : MemBlock) : Prop :=
  0 < b.size → 0 < c.size → b.start + b.size ≤ c.start ∨ c.start + c.size ≤ b.start

/-- Inductive invariant carried through every reachable state (with succeeding
tracking-node reservations): the pool is installed with a nonzero base, the
descriptors partition the pool range, the free list is `BlockOrd`-ordered, and
every descriptor lies inside the pool. -/
structure MMInv (s : MMState) : Prop where
  pool_some : s.memory_pool.isSome
  base_pos : 0 < poolBase s
  part : partitionHolds s
  ord : s.free_list.Pairwise BlockOrd
  inb : ∀ b ∈ s.free_list ++ s.allocated_list,
          poolBase s ≤ b.start ∧ b.start + b.size ≤ poolBase s + s.pool_size

/-- Free-list well-formedness: initialized pool with nonzero base, every free
block nonempty and inside the pool, and consecutive free blocks strictly
ordered with no overlap. -/
def WellFormedFree (s : MMState) : Prop :=
  s.memory_pool.isSome ∧ 0 < poolBase s ∧
    (∀ b ∈ s.free_list,
      0 < b.size ∧ poolBase s ≤ b.start ∧ b.start + b.size ≤ poolBase s + s.pool_size) ∧
    s.free_list.Chain' (fun b c => b.start + b.size ≤ c.start)

/-- No two consecutive blocks of the list are address-adjacent (no block's end
address equals the next block's start address). -/
def NoAdjacent (l : List MemBlock) : Prop :=
  l.Chain' (fun b c => b.start + b.size ≠ c.start)

example : mem_init 1 4 initState = ⟨some 1, 4, [⟨1, 4⟩], []⟩ := by decide

example : (mem_alloc 2 true (mem_init 1 4 initState)).1 = some 1 := by decide

example :
    (mem_alloc 2 true (mem_init 1 4 initState)).2 =
      ⟨some 1, 4, [⟨3, 2⟩], [⟨1, 2⟩]⟩ := by decide

example :
    mem_free 1 true (mem_alloc 2 true (mem_init 1 4 initState)).2 =
      ⟨some 1, 4, [⟨1, 4⟩], []⟩ := by decide

/-- C1 counterexample: the claim quantifies over all states reachable by
init/alloc/free/resize call sequences; the sequence `init(8); p := alloc(8);
free(p)` in which the tracking-node reservation inside `mem_free` fails
reaches a state where the pool address 1 is covered by no descriptor at all
(the block left the allocated list but was never returned to the free list),
so the ranges do not partition the pool. -/
theorem C1_counterexample :
    ¬ partitionHolds (mem_free 1 false (mem_alloc 8 true (mem_init 1 8 initState)).2) :=
  fun h => absurd (h 1) (by decide)

/-- C2 counterexample: freeing the single live allocation of a fully
allocated 4-byte pool while the tracking-node reservation fails is a
recoverable-reported failure per the claim, yet it changes the state — the
allocated list goes from one descriptor to empty. -/
theorem C2_counterexample : mem_free 1 false fullPool4 ≠ fullPool4 := by decide

/-- C4 counterexample: in the reachable state with free list
`[⟨3, 2⟩, ⟨1, 0⟩]`, the call `alloc(0)` consumes the block at address 3,
although the free block `⟨1, 0⟩` at the smaller address 1 also has
size ≥ 0 — so `alloc(n)` does not always consume the first free block in
address order with size ≥ n. -/
theorem C4_counterexample :
    displacedZeroState.free_list = [⟨3, 2⟩, ⟨1, 0⟩] ∧
      (mem_alloc 0 true displacedZeroState).1 = some 3 ∧
      ⟨1, 0⟩ ∈ displacedZeroState.free_list ∧ (1 : Nat) < 3 := by decide

/-- C5 counterexample: after `init(6); p := alloc(6); free(p)` with a failing
tracking-node reservation in the free, the free and allocated lists together
describe 0 bytes while the pool size is 6 — the byte sum is not preserved
across every alloc/free/resize call. -/
theorem C5_counterexample :
    totalSize (mem_free 1 false (mem_alloc 6 true (mem_init 1 6 initState)).2).free_list +
        totalSize (mem_free 1 false (mem_alloc 6 true (mem_init 1 6 initState)).2).allocated_list ≠
      (mem_free 1 false (mem_alloc 6 true (mem_init 1 6 initState)).2).pool_size := by decide

/-- C7 counterexample: on a freshly initialized 8-byte pool (a single free
block), `p := alloc(0)` succeeds returning address 1, but `free(p)` then
leaves a free list of two blocks `[⟨1, 8⟩, ⟨1, 0⟩]` — not a single block, so
the alloc/free round-trip does not restore the single-block shape for n = 0. -/
theorem C7_counterexample :
    (mem_alloc 0 true (mem_init 1 8 initState)).1 = some 1 ∧
      (mem_free 1 true (mem_alloc 0 true (mem_init 1 8 initState)).2).free_list =
        [⟨1, 8⟩, ⟨1, 0⟩] := by decide

/-- C8 counterexample: for the null pointer `p = 0` the claim's second part
fails: on a fresh 8-byte pool, `resize(NULL, 0)` takes the `ptr == NULL`
branch first and behaves as `alloc(0)` — it returns the non-null address 1 and
pushes a descriptor onto the allocated list, while `free(NULL)` leaves the
state unchanged and the claim demands a null result. -/
theorem C8_counterexample :
    (mem_resize 0 0 true true (mem_init 1 8 initState)).1 = some 1 ∧
      (mem_resize 0 0 true true (mem_init 1 8 initState)).2 ≠
        mem_free 0 true (mem_init 1 8 initState) := by decide

/-- C10 counterexample: in the reachable state whose free list is the single
zero-size descriptor `⟨1, 0⟩`, the call `alloc(0)` takes the exact-fit branch
and removes that descriptor from the free list — the free-list descriptors are
not left unchanged as the claim states. -/
theorem C10_counterexample :
    zeroHeadState.memory_pool.isSome ∧ zeroHeadState.free_list = [⟨1, 0⟩] ∧
      (mem_alloc 0 true zeroHeadState).2.free_list = [] := by decide

/-- C3: lock discipline is violated by the code.  `mem_init` performs no lock
operation at all (its trace is empty, contradicting "every public operation
acquires the mutex for its entire body"), and on the grow path `mem_resize`
calls `mem_alloc` while already holding the non-recursive `mem_mutex`: the
trace of `resize(1, 30)` on a 40-byte pool whose block at address 1 has size 5
attempts a nested acquire, which self-deadlocks a default (non-reentrant)
pthread mutex. -/
theorem C3_lock_violation :
    initLockTrace = [] ∧ hasNested (resizeLockTrace 1 30 true small5State) = true := by decide

/-- C9: the resize-grow scenario of the claim — `alloc(8)` on a 100-byte pool
then `resize(p, 64)` — never reaches the allocate-copy-free logic in the real
code: its lock trace attempts to re-acquire the held non-recursive mutex (the
self-deadlock shown in the first conjunct).  The remaining conjuncts evaluate
the lock-free functional body at the same input and show that the logic
guarded by the broken locking would behave exactly as the claim states: a
fresh allocation at address 9 whose first 8 bytes equal the pattern previously
stored at addresses 1..8, with the old block returned to the free list. -/
theorem C9_resize_grow_deadlock :
    hasNested (resizeLockTrace 1 64 true grow8State) = true ∧
      (mem_resize_mem 1 64 true true grow8State patternMem).1 = some 9 ∧
      (List.range 8).map (fun i => (mem_resize_mem 1 64 true true grow8State patternMem).2.2 (9 + i)) =
        (List.range 8).map (fun i => patternMem (1 + i)) ∧
      (mem_resize_mem 1 64 true true grow8State patternMem).2.1 =
        ⟨some 1, 100, [⟨1, 8⟩, ⟨73, 28⟩], [⟨9, 64⟩]⟩ := by decide

/-! Helper lemmas about the list-manipulating loops. -/

theorem allocLoop_eq {n : Nat} :
    ∀ {l : List MemBlock} {p : Nat} {l' : List MemBlock},
      allocLoop n l = some (p, l') →
      ∃ pre b post,
        l = pre ++ b :: post ∧ (∀ c ∈ pre, c.size < n) ∧ n ≤ b.size ∧ p = b.start ∧
          ((n < b.size ∧ l' = pre ++ MemBlock.mk (b.start + n) (b.size - n) :: post) ∨
            (b.size = n ∧ l' = pre ++ post)) := by
  intro l
  induction l with
  | nil => intro p l' h; simp [allocLoop] at h
  | cons b rest ih =>
    intro p l' h
    by_cases hle : n ≤ b.size
    · by_cases hlt : n < b.size
      · simp only [allocLoop, if_pos hle, if_pos hlt, Option.some.injEq, Prod.mk.injEq] at h
        exact ⟨[], b, rest, by simp, by simp, hle, h.1.symm,
          Or.inl ⟨hlt, by simpa using h.2.symm⟩⟩
      · simp only [allocLoop, if_pos hle, if_neg hlt, Option.some.injEq, Prod.mk.injEq] at h
        exact ⟨[], b, rest, by simp, by simp, hle, h.1.symm,
          Or.inr ⟨by omega, by simpa using h.2.symm⟩⟩
    · simp only [allocLoop, if_neg hle] at h
      cases hrec : allocLoop n rest with
      | none => rw [hrec] at h; simp at h
      | some pr =>
        rw [hrec] at h
        rcases pr with ⟨p0, rest'⟩
        simp only [Option.some.injEq, Prod.mk.injEq] at h
        obtain ⟨pre, b0, post, hsplit, hpre, hfit, hp, hcase⟩ := ih hrec
        refine ⟨b :: pre, b0, post, by simp [hsplit], ?_, hfit, by omega, ?_⟩
        · intro c hc
          rcases List.mem_cons.mp hc with rfl | hc
          · omega
          · exact hpre c hc
        · rcases hcase with ⟨h1, h2⟩ | ⟨h1, h2⟩
          · exact Or.inl ⟨h1, by simp [← h.2, h2]⟩
          · exact Or.inr ⟨h1, by simp [← h.2, h2]⟩

theorem removeAlloc_eq {p : Nat} :
    ∀ {l : List MemBlock} {blk : MemBlock} {l' : List MemBlock},
      removeAlloc p l = some (blk, l') →
      ∃ pre post, l = pre ++ blk :: post ∧ l' = pre ++ post ∧ blk.start = p ∧
        ∀ c ∈ pre, c.start ≠ p := by
  intro l
  induction l with
  | nil => intro blk l' h; simp [removeAlloc] at h
  | cons b rest ih =>
    intro blk l' h
    by_cases heq : b.start = p
    · simp only [removeAlloc, if_pos heq, Option.some.injEq, Prod.mk.injEq] at h
      exact ⟨[], rest, by simp [h.1.symm], by simp [h.2.symm], h.1 ▸ heq, by simp⟩
    · simp only [removeAlloc, if_neg heq] at h
      cases hrec : removeAlloc p rest with
      | none => rw [hrec] at h; simp at h
      | some pr =>
        rw [hrec] at h
        rcases pr with ⟨blk0, rest'⟩
        simp only [Option.some.injEq, Prod.mk.injEq] at h
        obtain ⟨pre, post, hsplit, hrest, hstart, hpre⟩ := ih hrec
        refine ⟨b :: pre, post, by simp [hsplit, h.1], by simp [← h.2, hrest], h.1 ▸ hstart, ?_⟩
        intro c hc
        rcases List.mem_cons.mp hc with rfl | hc
        · exact heq
        · exact hpre c hc

theorem totalSize_append (l₁ l₂ : List MemBlock) :
    totalSize (l₁ ++ l₂) = totalSize l₁ + totalSize l₂ := by
  simp [totalSize]

theorem totalSize_cons (b : MemBlock) (l : List MemBlock) :
    totalSize (b :: l) = b.size + totalSize l := by
  simp [totalSize]

theorem insertTail_totalSize (nb : MemBlock) :
    ∀ l : List MemBlock, totalSize (insertTail nb l) = nb.size + totalSize l := by
  intro l
  induction l with
  | nil => simp [insertTail, totalSize]
  | cons b rest ih =>
    by_cases h : b.start < nb.start
    · simp only [insertTail, if_pos h, totalSize_cons, ih]; omega
    · simp only [insertTail, if_neg h, totalSize_cons]

theorem insertFree_totalSize (nb : MemBlock) (l : List MemBlock) :
    totalSize (insertFree nb l) = nb.size + totalSize l := by
  cases l with
  | nil => simp [insertFree, totalSize]
  | cons b rest =>
    by_cases h : nb.start < b.start
    · simp only [insertFree, if_pos h, totalSize_cons]
    · simp only [insertFree, if_neg h, totalSize_cons, insertTail_totalSize]; omega

theorem mergeInto_totalSize :
    ∀ (l : List MemBlock) (b : MemBlock), totalSize (mergeInto b l) = b.size + totalSize l := by
  intro l
  induction l with
  | nil => intro b; simp [mergeInto, totalSize]
  | cons b' rest ih =>
    intro b
    by_cases h : b.start + b.size = b'.start
    · simp only [mergeInto, if_pos h, ih, totalSize_cons]; omega
    · simp only [mergeInto, if_neg h, totalSize_cons, ih]

theorem mergePass_totalSize (l : List MemBlock) : totalSize (mergePass l) = totalSize l := by
  cases l with
  | nil => rfl
  | cons b rest => simp [mergePass, mergeInto_totalSize, totalSize_cons]

/-! Coverage-count lemmas: each operation permutes, splits or merges the
address ranges of the descriptors, so the number of descriptors covering any
fixed address is unchanged. -/

theorem cov_eq_true_iff (a : Nat) (b : MemBlock) :
    cov a b = true ↔ b.start ≤ a ∧ a < b.start + b.size := by
  simp [cov]

theorem countP_cov_split {a : Nat} {b : MemBlock} {n : Nat} (hn : n ≤ b.size) :
    (if cov a (MemBlock.mk (b.start + n) (b.size - n)) = true then 1 else 0) +
        (if cov a (MemBlock.mk b.start n) = true then 1 else 0) =
      (if cov a b = true then 1 else 0) := by
  simp only [cov, Bool.and_eq_true, decide_eq_true_eq]
  split_ifs <;> omega

theorem countP_cov_merge {a : Nat} {b b' : MemBlock} (hadj : b.start + b.size = b'.start) :
    (if cov a (MemBlock.mk b.start (b.size + b'.size)) = true then 1 else 0) =
      (if cov a b = true then 1 else 0) + (if cov a b' = true then 1 else 0) := by
  simp only [cov, Bool.and_eq_true, decide_eq_true_eq]
  split_ifs <;> omega

theorem insertTail_countP (q : MemBlock → Bool) (nb : MemBlock) :
    ∀ l : List MemBlock, (insertTail nb l).countP q = (nb :: l).countP q := by
  intro l
  induction l with
  | nil => simp [insertTail]
  | cons b rest ih =>
    by_cases h : b.start < nb.start
    · simp only [insertTail, if_pos h, List.countP_cons, ih]; omega
    · simp only [insertTail, if_neg h, List.countP_cons]

theorem insertFree_countP (q : MemBlock → Bool) (nb : MemBlock) (l : List MemBlock) :
    (insertFree nb l).countP q = (nb :: l).countP q := by
  cases l with
  | nil => simp [insertFree]
  | cons b rest =>
    by_cases h : nb.start < b.start
    · simp only [insertFree, if_pos h]
    · simp only [insertFree, if_neg h, List.countP_cons, insertTail_countP]; omega

theorem mergeInto_countP_cov (a : Nat) :
    ∀ (l : List MemBlock) (b : MemBlock),
      (mergeInto b l).countP (cov a) = (b :: l).countP (cov a) := by
  intro l
  induction l with
  | nil => intro b; simp [mergeInto]
  | cons b' rest ih =>
    intro b
    by_cases h : b.start + b.size = b'.start
    · simp only [mergeInto, if_pos h, ih, List.countP_cons]
      have := countP_cov_merge (a := a) h
      omega
    · simp only [mergeInto, if_neg h, List.countP_cons, ih]

theorem mergePass_countP_cov (a : Nat) (l : List MemBlock) :
    (mergePass l).countP (cov a) = l.countP (cov a) := by
  cases l with
  | nil => rfl
  | cons b rest => simp [mergePass, mergeInto_countP_cov]

/-! Preservation of the pool metadata and of the partition property. -/

theorem mem_alloc_meta (n : Nat) (ok : Bool) (s : MMState) :
    (mem_alloc n ok s).2.memory_pool = s.memory_pool ∧
      (mem_alloc n ok s).2.pool_size = s.pool_size := by
  unfold mem_alloc
  repeat' split
  all_goals simp

theorem mem_free_meta (p : Nat) (ok : Bool) (s : MMState) :
    (mem_free p ok s).memory_pool = s.memory_pool ∧
      (mem_free p ok s).pool_size = s.pool_size := by
  unfold mem_free
  repeat' split
  all_goals simp

theorem inPool_congr {s t : MMState} (h1 : t.memory_pool = s.memory_pool)
    (h2 : t.pool_size = s.pool_size) (a : Nat) : inPool t a ↔ inPool s a := by
  unfold inPool poolBase
  rw [h1, h2]

theorem mem_alloc_coverCount (n : Nat) (s : MMState) (a : Nat) :
    coverCount (mem_alloc n true s).2 a = coverCount s a := by
  unfold coverCount
  cases hmp : s.memory_pool with
  | none => simp [mem_alloc, hmp]
  | some base =>
    cases hal : allocLoop n s.free_list with
    | none => simp [mem_alloc, hmp, hal]
    | some pr =>
      rcases pr with ⟨p, fl⟩
      simp only [mem_alloc, hmp, hal, if_true]
      obtain ⟨pre, b, post, hsplit, hpre, hfit, hp, hcase⟩ := allocLoop_eq hal
      subst hp
      rcases hcase with ⟨hlt, hfl⟩ | ⟨heq, hfl⟩
      · rw [hfl, hsplit]
        simp only [List.countP_append, List.countP_cons]
        have := countP_cov_split (a := a) (b := b) (n := n) hfit
        omega
      · rw [hfl, hsplit]
        simp only [List.countP_append, List.countP_cons]
        have hmk : MemBlock.mk b.start n = b := by rw [← heq]
        rw [hmk]
        omega

theorem mem_free_coverCount (p : Nat) (s : MMState) (a : Nat) :
    coverCount (mem_free p true s) a = coverCount s a := by
  unfold coverCount mem_free
  split
  · rfl
  split
  · rfl
  cases hra : removeAlloc p s.allocated_list with
  | none => rfl
  | some pr =>
    rcases pr with ⟨blk, al⟩
    simp only [if_true]
    obtain ⟨pre, post, hsplit, hal, hstart, hpre⟩ := removeAlloc_eq hra
    simp only [List.countP_append, mergePass_countP_cov, insertFree_countP, List.countP_cons]
    rw [hal, hsplit]
    simp only [List.countP_append, List.countP_cons]
    have hmk : MemBlock.mk p blk.size = blk := by rw [← hstart]
    rw [hmk]
    omega

theorem mem_alloc_partition {n : Nat} {s : MMState} (h : partitionHolds s) :
    partitionHolds (mem_alloc n true s).2 := by
  intro a
  have hm := mem_alloc_meta n true s
  rw [mem_alloc_coverCount n s a, h a]
  simp [inPool_congr hm.1 hm.2 a]

theorem mem_free_partition {p : Nat} {s : MMState} (h : partitionHolds s) :
    partitionHolds (mem_free p true s) := by
  intro a
  have hm := mem_free_meta p true s
  rw [mem_free_coverCount p s a, h a]
  simp [inPool_congr hm.1 hm.2 a]

/-! Ordering lemmas: the coalescing pass and the ordered insertion preserve
the `BlockOrd` pairwise relation of the free list. -/

theorem blockOrd_start_le {b y : MemBlock} (h : BlockOrd b y) (hy : 0 < y.size) :
    b.start ≤ y.start := by
  obtain ⟨h1, h2⟩ := h hy
  rcases Nat.eq_zero_or_pos b.size with h0 | hpos
  · exact h2 h0
  · have := h1 hpos; omega

theorem posDisj_blockOrd_left {x nb : MemBlock} (hd : PosDisj x nb)
    (hle : x.start ≤ nb.start) : BlockOrd x nb := by
  intro hnb
  refine ⟨fun hx => ?_, fun _ => hle⟩
  rcases hd hx hnb with h | h
  · exact h
  · omega

theorem posDisj_blockOrd_right {nb y : MemBlock} (hd : PosDisj nb y)
    (hys : 0 < y.size → nb.start ≤ y.start) : BlockOrd nb y := by
  intro hy
  have hle := hys hy
  refine ⟨fun hnb => ?_, fun _ => hle⟩
  rcases hd hnb hy with h | h
  · exact h
  · omega

theorem mergeInto_shape :
    ∀ (l : List MemBlock) (b : MemBlock),
      ∃ sz rest, mergeInto b l = MemBlock.mk b.start sz :: rest := by
  intro l
  induction l with
  | nil => intro b; exact ⟨b.size, [], rfl⟩
  | cons b' rest ih =>
    intro b
    by_cases h : b.start + b.size = b'.start
    · obtain ⟨sz, r, hr⟩ := ih ⟨b.start, b.size + b'.size⟩
      exact ⟨sz, r, by simpa [mergeInto, h] using hr⟩
    · exact ⟨b.size, mergeInto b' rest, by simp [mergeInto, h]⟩

theorem mergeInto_noAdjacent :
    ∀ (l : List MemBlock) (b : MemBlock), NoAdjacent (mergeInto b l) := by
  intro l
  induction l with
  | nil => intro b; simp [mergeInto, NoAdjacent]
  | cons b' rest ih =>
    intro b
    by_cases h : b.start + b.size = b'.start
    · simpa [mergeInto, h] using ih ⟨b.start, b.size + b'.size⟩
    · simp only [mergeInto, if_neg h]
      obtain ⟨sz, r, hr⟩ := mergeInto_shape rest b'
      unfold NoAdjacent
      rw [hr]
      exact List.chain'_cons.mpr ⟨by simpa using h, by rw [← hr]; exact ih b'⟩

theorem mergeInto_mem_pos :
    ∀ (l : List MemBlock) (b c : MemBlock), c ∈ mergeInto b l → 0 < c.size →
      ∃ e, e ∈ b :: l ∧ 0 < e.size ∧ e.start = c.start := by
  intro l
  induction l with
  | nil =>
    intro b c hc hpos
    simp only [mergeInto, List.mem_singleton] at hc
    subst hc
    exact ⟨c, by simp, hpos, rfl⟩
  | cons b' rest ih =>
    intro b c hc hpos
    by_cases h : b.start + b.size = b'.start
    · simp only [mergeInto, if_pos h] at hc
      obtain ⟨e, he, hes, hest⟩ := ih _ c hc hpos
      rcases List.mem_cons.mp he with rfl | he
      · simp only at hes hest
        rcases Nat.eq_zero_or_pos b.size with hb0 | hbpos
        · exact ⟨b', by simp, by omega, by omega⟩
        · exact ⟨b, by simp, hbpos, hest⟩
      · exact ⟨e, by simp [he], hes, hest⟩
    · simp only [mergeInto, if_neg h] at hc
      rcases List.mem_cons.mp hc with rfl | hc
      · exact ⟨c, by simp, hpos, rfl⟩
      · obtain ⟨e, he, hes, hest⟩ := ih b' c hc hpos
        rcases List.mem_cons.mp he with rfl | he
        · exact ⟨e, by simp, hes, hest⟩
        · exact ⟨e, by simp [he], hes, hest⟩

theorem mergeInto_mem_bounds :
    ∀ (l : List MemBlock) (b c : MemBlock), c ∈ mergeInto b l →
      (∃ d, d ∈ b :: l ∧ d.start = c.start) ∧
        (∃ e, e ∈ b :: l ∧ c.start + c.size ≤ e.start + e.size) := by
  intro l
  induction l with
  | nil =>
    intro b c hc
    simp only [mergeInto, List.mem_singleton] at hc
    subst hc
    exact ⟨⟨c, by simp, rfl⟩, ⟨c, by simp, le_rfl⟩⟩
  | cons b' rest ih =>
    intro b c hc
    by_cases h : b.start + b.size = b'.start
    · simp only [mergeInto, if_pos h] at hc
      obtain ⟨⟨d, hd, hds⟩, ⟨e, he, hee⟩⟩ := ih _ c hc
      constructor
      · rcases List.mem_cons.mp hd with rfl | hd
        · exact ⟨b, by simp, by simpa using hds⟩
        · exact ⟨d, by simp [hd], hds⟩
      · rcases List.mem_cons.mp he with rfl | he
        · refine ⟨b', by simp, ?_⟩
          simp only at hee
          omega
        · exact ⟨e, by simp [he], hee⟩
    · simp only [mergeInto, if_neg h] at hc
      rcases List.mem_cons.mp hc with rfl | hc
      · exact ⟨⟨c, by simp, rfl⟩, ⟨c, by simp, le_rfl⟩⟩
      · obtain ⟨⟨d, hd, hds⟩, ⟨e, he, hee⟩⟩ := ih b' c hc
        constructor
        · rcases List.mem_cons.mp hd with rfl | hd
          · exact ⟨d, by simp, hds⟩
          · exact ⟨d, by simp [hd], hds⟩
        · rcases List.mem_cons.mp he with rfl | he
          · exact ⟨e, by simp, hee⟩
          · exact ⟨e, by simp [he], hee⟩

theorem blockOrd_merge_step {b b' : MemBlock} {rest : List MemBlock}
    (hadj : b.start + b.size = b'.start)
    (h : (b :: b' :: rest).Pairwise BlockOrd) :
    (MemBlock.mk b.start (b.size + b'.size) :: rest).Pairwise BlockOrd := by
  rw [List.pairwise_cons] at h
  obtain ⟨hb, h2⟩ := h
  rw [List.pairwise_cons] at h2
  obtain ⟨hb', hrest⟩ := h2
  rw [List.pairwise_cons]
  refine ⟨?_, hrest⟩
  intro c hc hcpos
  have h1 := hb c (by simp [hc]) hcpos
  have h2 := hb' c hc hcpos
  simp only
  rcases Nat.eq_zero_or_pos b.size with hb0 | hbpos <;>
    rcases Nat.eq_zero_or_pos b'.size with hb'0 | hb'pos
  · have := h1.2 hb0
    exact ⟨fun h => by omega, fun _ => this⟩
  · have := h2.1 hb'pos
    exact ⟨fun _ => by omega, fun h => by omega⟩
  · have := h1.1 hbpos
    exact ⟨fun _ => by omega, fun h => by omega⟩
  · have := h2.1 hb'pos
    have := h1.1 hbpos
    exact ⟨fun _ => by omega, fun h => by omega⟩

theorem mergeInto_pairwise :
    ∀ (l : List MemBlock) (b : MemBlock),
      (b :: l).Pairwise BlockOrd → (mergeInto b l).Pairwise BlockOrd := by
  intro l
  induction l with
  | nil => intro b _; simp [mergeInto]
  | cons b' rest ih =>
    intro b h
    by_cases hadj : b.start + b.size = b'.start
    · simp only [mergeInto, if_pos hadj]
      exact ih _ (blockOrd_merge_step hadj h)
    · simp only [mergeInto, if_neg hadj]
      rw [List.pairwise_cons] at h
      obtain ⟨hb, h2⟩ := h
      rw [List.pairwise_cons]
      refine ⟨?_, ih b' h2⟩
      intro c hc hcpos
      obtain ⟨e, he, hes, hest⟩ := mergeInto_mem_pos rest b' c hc hcpos
      have hbe := hb e he hes
      rw [← hest]
      exact hbe

theorem posDisj_symm {b c : MemBlock} (h : PosDisj b c) : PosDisj c b :=
  fun hc hb => (h hb hc).symm

theorem insertTail_mem :
    ∀ (l : List MemBlock) (nb y : MemBlock), y ∈ insertTail nb l → y = nb ∨ y ∈ l := by
  intro l
  induction l with
  | nil => intro nb y hy; simp only [insertTail, List.mem_singleton] at hy; exact Or.inl hy
  | cons b rest ih =>
    intro nb y hy
    by_cases h : b.start < nb.start
    · simp only [insertTail, if_pos h, List.mem_cons] at hy
      rcases hy with rfl | hy
      · exact Or.inr (by simp)
      · rcases ih nb y hy with h1 | h1
        · exact Or.inl h1
        · exact Or.inr (by simp [h1])
    · simp only [insertTail, if_neg h, List.mem_cons] at hy
      rcases hy with rfl | hy
      · exact Or.inl rfl
      · exact Or.inr (by simpa using hy)

theorem insertFree_mem :
    ∀ (l : List MemBlock) (nb y : MemBlock), y ∈ insertFree nb l → y = nb ∨ y ∈ l := by
  intro l nb y hy
  cases l with
  | nil => simp only [insertFree, List.mem_singleton] at hy; exact Or.inl hy
  | cons b rest =>
    by_cases h : nb.start < b.start
    · simp only [insertFree, if_pos h, List.mem_cons] at hy
      rcases hy with rfl | hy
      · exact Or.inl rfl
      · exact Or.inr (by simpa using hy)
    · simp only [insertFree, if_neg h, List.mem_cons] at hy
      rcases hy with rfl | hy
      · exact Or.inr (by simp)
      · rcases insertTail_mem rest nb y hy with h1 | h1
        · exact Or.inl h1
        · exact Or.inr (by simp [h1])

theorem countP_pair_le {b c : MemBlock} {l₁ l₂ : List MemBlock} (hb : b ∈ l₁) (hc : c ∈ l₂)
    (q : MemBlock → Bool) : [b, c].countP q ≤ (l₁ ++ l₂).countP q := by
  have h1 : List.Sublist [b] l₁ := List.singleton_sublist.mpr hb
  have h2 : List.Sublist [c] l₂ := List.singleton_sublist.mpr hc
  simpa using (h1.append h2).countP_le q

theorem partition_posDisj {s : MMState} (hp : partitionHolds s) {b c : MemBlock}
    (hb : b ∈ s.free_list) (hc : c ∈ s.allocated_list) : PosDisj c b := by
  intro hcpos hbpos
  by_contra hcon
  push_neg at hcon
  obtain ⟨h1, h2⟩ := hcon
  have hcovb : cov (max b.start c.start) b = true := by
    rw [cov_eq_true_iff]; omega
  have hcovc : cov (max b.start c.start) c = true := by
    rw [cov_eq_true_iff]; omega
  have hle := countP_pair_le hb hc (cov (max b.start c.start))
  have h2count : [b, c].countP (cov (max b.start c.start)) = 2 := by
    simp [List.countP_cons, hcovb, hcovc]
  have hub : coverCount s (max b.start c.start) ≤ 1 := by
    rw [hp (max b.start c.start)]; split_ifs <;> omega
  unfold coverCount at hub
  omega

theorem insertTail_pairwise :
    ∀ (l : List MemBlock) (nb : MemBlock),
      l.Pairwise BlockOrd → (∀ c ∈ l, PosDisj nb c) →
      (insertTail nb l).Pairwise BlockOrd := by
  intro l
  induction l with
  | nil => intro nb _ _; simp [insertTail]
  | cons b rest ih =>
    intro nb h hd
    rw [List.pairwise_cons] at h
    obtain ⟨hb, hrest⟩ := h
    by_cases hlt : b.start < nb.start
    · simp only [insertTail, if_pos hlt]
      rw [List.pairwise_cons]
      refine ⟨?_, ih nb hrest (fun c hc => hd c (by simp [hc]))⟩
      intro y hy
      rcases insertTail_mem rest nb y hy with rfl | hy
      · exact posDisj_blockOrd_left (posDisj_symm (hd b (by simp))) (by omega)
      · exact hb y hy
    · simp only [insertTail, if_neg hlt]
      rw [List.pairwise_cons]
      refine ⟨?_, List.pairwise_cons.mpr ⟨hb, hrest⟩⟩
      intro y hy
      rcases List.mem_cons.mp hy with rfl | hy
      · exact posDisj_blockOrd_right (hd y (by simp)) (fun _ => by omega)
      · refine posDisj_blockOrd_right (hd y (by simp [hy])) (fun hys => ?_)
        have := blockOrd_start_le (hb y hy) hys
        omega

theorem insertFree_pairwise {l : List MemBlock} {nb : MemBlock}
    (h : l.Pairwise BlockOrd) (hd : ∀ c ∈ l, PosDisj nb c) :
    (insertFree nb l).Pairwise BlockOrd := by
  cases l with
  | nil => simp [insertFree]
  | cons b rest =>
    rw [List.pairwise_cons] at h
    obtain ⟨hb, hrest⟩ := h
    by_cases hlt : nb.start < b.start
    · simp only [insertFree, if_pos hlt]
      rw [List.pairwise_cons]
      refine ⟨?_, List.pairwise_cons.mpr ⟨hb, hrest⟩⟩
      intro y hy
      rcases List.mem_cons.mp hy with rfl | hy
      · exact posDisj_blockOrd_right (hd y (by simp)) (fun _ => by omega)
      · refine posDisj_blockOrd_right (hd y (by simp [hy])) (fun hys => ?_)
        have := blockOrd_start_le (hb y hy) hys
        omega
    · simp only [insertFree, if_neg hlt]
      rw [List.pairwise_cons]
      refine ⟨?_, insertTail_pairwise rest nb hrest (fun c hc => hd c (by simp [hc]))⟩
      intro y hy
      rcases insertTail_mem rest nb y hy with rfl | hy
      · exact posDisj_blockOrd_left (posDisj_symm (hd b (by simp))) (by omega)
      · exact hb y hy

/-! Invariant preservation for `mem_alloc`. -/

theorem blockOrd_shrink_right {x b : MemBlock} {n : Nat} (hx : BlockOrd x b)
    (hb : 0 < b.size) :
    BlockOrd x (MemBlock.mk (b.start + n) (b.size - n)) := by
  intro hpos
  obtain ⟨c1, c2⟩ := hx hb
  refine ⟨fun hx1 => ?_, fun hx0 => ?_⟩
  · have := c1 hx1
    show x.start + x.size ≤ b.start + n
    omega
  · have := c2 hx0
    show x.start ≤ b.start + n
    omega

theorem blockOrd_shrink_left {b y : MemBlock} {n : Nat} (h : BlockOrd b y) (hn : n ≤ b.size) :
    BlockOrd (MemBlock.mk (b.start + n) (b.size - n)) y := by
  intro hy
  obtain ⟨c1, c2⟩ := h hy
  refine ⟨fun h1 => ?_, fun h0 => ?_⟩
  · have hbpos : 0 < b.size := by
      have h1' : 0 < b.size - n := h1
      omega
    have := c1 hbpos
    show b.start + n + (b.size - n) ≤ y.start
    omega
  · have h0' : b.size - n = 0 := h0
    show b.start + n ≤ y.start
    rcases Nat.eq_zero_or_pos b.size with hz | hpos
    · have := c2 hz; omega
    · have := c1 hpos; omega

theorem mem_alloc_ord {n : Nat} {s : MMState} (h : s.free_list.Pairwise BlockOrd) :
    (mem_alloc n true s).2.free_list.Pairwise BlockOrd := by
  cases hmp : s.memory_pool with
  | none => simpa [mem_alloc, hmp] using h
  | some base =>
    cases hal : allocLoop n s.free_list with
    | none => simpa [mem_alloc, hmp, hal] using h
    | some pr =>
      rcases pr with ⟨p, fl⟩
      simp only [mem_alloc, hmp, hal, if_true]
      obtain ⟨pre, b, post, hsplit, hpre, hfit, hp, hcase⟩ := allocLoop_eq hal
      rw [hsplit] at h
      rcases hcase with ⟨hlt, hfl⟩ | ⟨heq, hfl⟩
      · rw [hfl]
        rw [List.pairwise_append] at h ⊢
        obtain ⟨hpre2, hmid, hcross⟩ := h
        have hbpos : 0 < b.size := by omega
        refine ⟨hpre2, ?_, ?_⟩
        · rw [List.pairwise_cons] at hmid ⊢
          exact ⟨fun y hy => blockOrd_shrink_left (hmid.1 y hy) hfit, hmid.2⟩
        · intro x hx y hy
          rcases List.mem_cons.mp hy with rfl | hy
          · exact blockOrd_shrink_right (hcross x hx b (by simp)) hbpos
          · exact hcross x hx y (by simp [hy])
      · rw [hfl]
        exact List.Pairwise.sublist
          ((List.Sublist.refl pre).append (List.sublist_cons_of_sublist b (List.Sublist.refl post))) h

theorem mem_alloc_inb {n : Nat} {s : MMState}
    (h : ∀ c ∈ s.free_list ++ s.allocated_list,
      poolBase s ≤ c.start ∧ c.start + c.size ≤ poolBase s + s.pool_size) :
    ∀ c ∈ (mem_alloc n true s).2.free_list ++ (mem_alloc n true s).2.allocated_list,
      poolBase s ≤ c.start ∧ c.start + c.size ≤ poolBase s + s.pool_size := by
  cases hmp : s.memory_pool with
  | none => simpa [mem_alloc, hmp] using h
  | some base =>
    cases hal : allocLoop n s.free_list with
    | none => simpa [mem_alloc, hmp, hal] using h
    | some pr =>
      rcases pr with ⟨p, fl⟩
      simp only [mem_alloc, hmp, hal, if_true]
      obtain ⟨pre, b, post, hsplit, hpre, hfit, hp, hcase⟩ := allocLoop_eq hal
      subst hp
      have hb := h b (by rw [hsplit]; simp)
      intro c hc
      rw [List.mem_append] at hc
      rcases hc with hc | hc
      · rcases hcase with ⟨hlt, hfl⟩ | ⟨heq, hfl⟩
        · rw [hfl] at hc
          rcases List.mem_append.mp hc with hc | hc
          · exact h c (by rw [hsplit]; simp [hc])
          · rcases List.mem_cons.mp hc with rfl | hc
            · refine ⟨?_, ?_⟩
              · show poolBase s ≤ b.start + n
                omega
              · show b.start + n + (b.size - n) ≤ poolBase s + s.pool_size
                omega
            · exact h c (by rw [hsplit]; simp [hc])
        · rw [hfl] at hc
          rcases List.mem_append.mp hc with hc | hc
          · exact h c (by rw [hsplit]; simp [hc])
          · exact h c (by rw [hsplit]; simp [hc])
      · rcases List.mem_cons.mp hc with rfl | hc
        · refine ⟨?_, ?_⟩
          · show poolBase s ≤ b.start
            omega
          · show b.start + n ≤ poolBase s + s.pool_size
            omega
        · exact h c (by simp [hc])

theorem mem_alloc_inv {n : Nat} {s : MMState} (h : MMInv s) : MMInv (mem_alloc n true s).2 := by
  obtain ⟨hsome, hbase, hpart, hord, hinb⟩ := h
  have hmeta := mem_alloc_meta n true s
  refine ⟨?_, ?_, mem_alloc_partition hpart, mem_alloc_ord hord, ?_⟩
  · rw [hmeta.1]; exact hsome
  · unfold poolBase; rw [hmeta.1]; exact hbase
  · have hb := mem_alloc_inb (n := n) hinb
    intro c hc
    have := hb c hc
    unfold poolBase at this ⊢
    rw [hmeta.1, hmeta.2]
    exact this

/-! Invariant preservation for `mem_free`, `mem_resize` and `mem_init`. -/

theorem mem_free_ord {p : Nat} {s : MMState} (hord : s.free_list.Pairwise BlockOrd)
    (hpart : partitionHolds s) :
    (mem_free p true s).free_list.Pairwise BlockOrd := by
  unfold mem_free
  split
  · exact hord
  split
  · exact hord
  cases hra : removeAlloc p s.allocated_list with
  | none => exact hord
  | some pr =>
    rcases pr with ⟨blk, al⟩
    simp only [if_true]
    obtain ⟨pre, post, hsplit, halist, hstart, _⟩ := removeAlloc_eq hra
    have hblkmem : blk ∈ s.allocated_list := by rw [hsplit]; simp
    have hmk : MemBlock.mk p blk.size = blk := by rw [← hstart]
    have hdisj : ∀ c ∈ s.free_list, PosDisj (MemBlock.mk p blk.size) c := by
      intro c hc
      rw [hmk]
      exact partition_posDisj hpart hc hblkmem
    have hins := insertFree_pairwise hord hdisj
    show (mergePass (insertFree (MemBlock.mk p blk.size) s.free_list)).Pairwise BlockOrd
    cases hif : insertFree (MemBlock.mk p blk.size) s.free_list with
    | nil => simp [mergePass]
    | cons hd tl =>
      rw [hif] at hins
      exact mergeInto_pairwise tl hd hins

theorem mem_free_inb {p : Nat} {s : MMState}
    (h : ∀ c ∈ s.free_list ++ s.allocated_list,
      poolBase s ≤ c.start ∧ c.start + c.size ≤ poolBase s + s.pool_size) :
    ∀ c ∈ (mem_free p true s).free_list ++ (mem_free p true s).allocated_list,
      poolBase s ≤ c.start ∧ c.start + c.size ≤ poolBase s + s.pool_size := by
  unfold mem_free
  split
  · exact h
  split
  · exact h
  cases hra : removeAlloc p s.allocated_list with
  | none => exact h
  | some pr =>
    rcases pr with ⟨blk, al⟩
    simp only [if_true]
    obtain ⟨pre, post, hsplit, halist, hstart, _⟩ := removeAlloc_eq hra
    have hblkb := h blk (by rw [hsplit]; simp)
    have hmemof : ∀ d, d = MemBlock.mk p blk.size ∨ d ∈ s.free_list →
        poolBase s ≤ d.start ∧ d.start + d.size ≤ poolBase s + s.pool_size := by
      intro d hd
      rcases hd with rfl | hd
      · rw [← hstart]
        exact hblkb
      · exact h d (by simp [hd])
    intro c hc
    rw [List.mem_append] at hc
    rcases hc with hc | hc
    · show poolBase s ≤ c.start ∧ c.start + c.size ≤ poolBase s + s.pool_size
      rcases hif : insertFree (MemBlock.mk p blk.size) s.free_list with _ | ⟨hd, tl⟩
      · rw [hif] at hc
        simp [mergePass] at hc
      · rw [hif] at hc
        obtain ⟨⟨d, hd1, hd2⟩, ⟨e, he1, he2⟩⟩ := mergeInto_mem_bounds tl hd c hc
        have hdb := hmemof d (insertFree_mem _ _ _ (hif ▸ hd1))
        have heb := hmemof e (insertFree_mem _ _ _ (hif ▸ he1))
        omega
    · rw [halist] at hc
      rcases List.mem_append.mp hc with hc | hc
      · exact h c (by rw [hsplit]; simp [hc])
      · exact h c (by rw [hsplit]; simp [hc])

theorem mem_free_inv {p : Nat} {s : MMState} (h : MMInv s) : MMInv (mem_free p true s) := by
  obtain ⟨hsome, hbase, hpart, hord, hinb⟩ := h
  have hmeta := mem_free_meta p true s
  refine ⟨?_, ?_, mem_free_partition hpart, mem_free_ord hord hpart, ?_⟩
  · rw [hmeta.1]; exact hsome
  · unfold poolBase; rw [hmeta.1]; exact hbase
  · have hb := mem_free_inb (p := p) hinb
    intro c hc
    have := hb c hc
    unfold poolBase at this ⊢
    rw [hmeta.1, hmeta.2]
    exact this

theorem mem_resize_inv {p n : Nat} {s : MMState} (h : MMInv s) :
    MMInv (mem_resize p n true true s).2 := by
  unfold mem_resize
  split
  · exact mem_alloc_inv h
  split
  · exact mem_free_inv h
  cases hfa : findAlloc p s.allocated_list with
  | none => exact h
  | some blk =>
    simp only
    split
    · exact h
    · rcases halloc : mem_alloc n true s with ⟨r, s1⟩
      have hs1 : s1 = (mem_alloc n true s).2 := by rw [halloc]
      cases r with
      | none =>
        simp only
        rw [hs1]
        exact mem_alloc_inv h
      | some np =>
        simp only
        rw [hs1]
        exact mem_free_inv (mem_alloc_inv h)

theorem mem_init_inv {base size : Nat} (hb : 0 < base) :
    MMInv (mem_init base size initState) := by
  have hstate : mem_init base size initState = ⟨some base, size, [⟨base, size⟩], []⟩ := rfl
  rw [hstate]
  refine ⟨rfl, hb, ?_, ?_, ?_⟩
  · intro a
    show List.countP (cov a) [MemBlock.mk base size] = _
    unfold inPool poolBase
    simp only [List.countP_cons, List.countP_nil, cov, Bool.and_eq_true, decide_eq_true_eq,
      Nat.zero_add, Option.getD_some]
  · simp
  · intro c hc
    simp only [List.append_nil, List.mem_singleton] at hc
    subst hc
    simp [poolBase]

theorem mem_init_of_inv {base size : Nat} {s : MMState} (h : MMInv s) :
    mem_init base size s = s := by
  unfold mem_init
  rw [if_pos h.pool_some]

theorem reachable_inv {s : MMState} (h : ReachableOk s) : MMInv s := by
  induction h with
  | init base size hb hs => exact mem_init_inv hb
  | reinit base size h ih => rw [mem_init_of_inv ih]; exact ih
  | alloc n h ih => exact mem_alloc_inv ih
  | free p h ih => exact mem_free_inv ih
  | resize p n h ih => exact mem_resize_inv ih

/-! Byte-conservation lemmas. -/

theorem allocLoop_totalSize {n : Nat} {l : List MemBlock} {p : Nat} {l' : List MemBlock}
    (h : allocLoop n l = some (p, l')) : totalSize l' + n = totalSize l := by
  obtain ⟨pre, b, post, hsplit, _, hfit, _, hcase⟩ := allocLoop_eq h
  rcases hcase with ⟨hlt, hfl⟩ | ⟨heq, hfl⟩ <;>
    rw [hfl, hsplit] <;> simp [totalSize_append, totalSize_cons] <;> omega

theorem mem_alloc_totalSize (n : Nat) (ok : Bool) (s : MMState) :
    totalSize (mem_alloc n ok s).2.free_list + totalSize (mem_alloc n ok s).2.allocated_list =
      totalSize s.free_list + totalSize s.allocated_list := by
  cases hmp : s.memory_pool with
  | none => simp [mem_alloc, hmp]
  | some base =>
    cases hal : allocLoop n s.free_list with
    | none => simp [mem_alloc, hmp, hal]
    | some pr =>
      rcases pr with ⟨p, fl⟩
      cases ok with
      | false => simp [mem_alloc, hmp, hal]
      | true =>
        simp only [mem_alloc, hmp, hal, if_true]
        show totalSize fl + totalSize (MemBlock.mk p n :: s.allocated_list) = _
        rw [totalSize_cons]
        have hsz : (MemBlock.mk p n).size = n := rfl
        rw [hsz]
        have := allocLoop_totalSize hal
        omega

theorem mem_free_totalSize (p : Nat) (s : MMState) :
    totalSize (mem_free p true s).free_list + totalSize (mem_free p true s).allocated_list =
      totalSize s.free_list + totalSize s.allocated_list := by
  unfold mem_free
  split
  · rfl
  split
  · rfl
  cases hra : removeAlloc p s.allocated_list with
  | none => rfl
  | some pr =>
    rcases pr with ⟨blk, al⟩
    simp only [if_true]
    obtain ⟨pre, post, hsplit, halist, hstart, _⟩ := removeAlloc_eq hra
    show totalSize (mergePass (insertFree (MemBlock.mk p blk.size) s.free_list)) +
        totalSize al = _
    rw [mergePass_totalSize, insertFree_totalSize, halist, hsplit]
    simp [totalSize_append, totalSize_cons]
    omega

theorem mem_resize_meta (p n : Nat) (ok1 ok2 : Bool) (s : MMState) :
    (mem_resize p n ok1 ok2 s).2.memory_pool = s.memory_pool ∧
      (mem_resize p n ok1 ok2 s).2.pool_size = s.pool_size := by
  unfold mem_resize
  split
  · exact mem_alloc_meta n ok1 s
  split
  · exact mem_free_meta p ok2 s
  cases hfa : findAlloc p s.allocated_list with
  | none => exact ⟨rfl, rfl⟩
  | some blk =>
    simp only
    split
    · exact ⟨rfl, rfl⟩
    · rcases halloc : mem_alloc n ok1 s with ⟨r, s1⟩
      have hs1 : s1 = (mem_alloc n ok1 s).2 := by rw [halloc]
      cases r with
      | none =>
        simp only
        rw [hs1]
        exact mem_alloc_meta n ok1 s
      | some np =>
        simp only
        rw [hs1]
        have h1 := mem_free_meta p ok2 (mem_alloc n ok1 s).2
        have h2 := mem_alloc_meta n ok1 s
        exact ⟨h1.1.trans h2.1, h1.2.trans h2.2⟩

theorem mem_resize_totalSize (p n : Nat) (s : MMState) :
    totalSize (mem_resize p n true true s).2.free_list +
        totalSize (mem_resize p n true true s).2.allocated_list =
      totalSize s.free_list + totalSize s.allocated_list := by
  unfold mem_resize
  split
  · exact mem_alloc_totalSize n true s
  split
  · exact mem_free_totalSize p s
  cases hfa : findAlloc p s.allocated_list with
  | none => rfl
  | some blk =>
    simp only
    split
    · rfl
    · rcases halloc : mem_alloc n true s with ⟨r, s1⟩
      have hs1 : s1 = (mem_alloc n true s).2 := by rw [halloc]
      cases r with
      | none =>
        simp only
        rw [hs1]
        exact mem_alloc_totalSize n true s
      | some np =>
        simp only
        rw [hs1]
        rw [mem_free_totalSize p (mem_alloc n true s).2]
        exact mem_alloc_totalSize n true s

theorem reachable_total {s : MMState} (h : ReachableOk s) :
    totalSize s.free_list + totalSize s.allocated_list = s.pool_size := by
  induction h with
  | init base size hb hs =>
    show totalSize [MemBlock.mk base size] + totalSize [] = size
    simp [totalSize]
  | reinit base size h ih =>
    rw [mem_init_of_inv (reachable_inv h)]
    exact ih
  | alloc n h ih =>
    rw [mem_alloc_totalSize n true _, (mem_alloc_meta n true _).2]
    exact ih
  | free p h ih =>
    rw [mem_free_totalSize p _, (mem_free_meta p true _).2]
    exact ih
  | resize p n h ih =>
    rw [mem_resize_totalSize p n _, (mem_resize_meta p n true true _).2]
    exact ih

/-! Claim theorems. -/

theorem mem_free_not_found {p : Nat} {ok : Bool} {t : MMState}
    (h : removeAlloc p t.allocated_list = none) : mem_free p ok t = t := by
  unfold mem_free
  split
  · rfl
  split
  · rfl
  rw [h]

/-- C1 (amended): in every state reachable from `init(size)` (`size > 0`,
nonzero pool base) by init/alloc/free/resize calls in which every
tracking-node reservation succeeds, the free-list and allocated-list ranges
are pairwise disjoint and their union is exactly the pool range: every pool
address is covered by exactly one descriptor and every outside address by
none. -/
theorem C1_partition_reachable (s : MMState) (h : ReachableOk s) : partitionHolds s :=
  (reachable_inv h).part

theorem C1_witness : coverCount (mem_init 1 4 initState) 2 = 1 := by
  have h := C1_partition_reachable (mem_init 1 4 initState)
    (ReachableOk.init 1 4 (by decide) (by decide))
  rw [h 2]
  decide

/-- C2 (amended): every recoverable-reported failure leaves the state exactly
unchanged and signals failure — alloc with no fitting free block, tracking
reservation failure during alloc, free of a null / out-of-bounds / unmatched
pointer (in particular a second free of a pointer once no allocated descriptor
carries that address any more), resize of an unmatched pointer, and
alloc/free/resize before init — with the single exception of a tracking-node
reservation failure during free, which removes the matched descriptor from the
allocated list without returning its range to the free list. -/
theorem C2_recoverable_failures (s : MMState) (n p : Nat) (ok ok2 : Bool) :
    (allocLoop n s.free_list = none → mem_alloc n ok s = (none, s)) ∧
      (mem_alloc n false s = (none, s)) ∧
      (mem_free 0 ok s = s) ∧
      ((p < poolBase s ∨ poolBase s + s.pool_size ≤ p) → mem_free p ok s = s) ∧
      (removeAlloc p s.allocated_list = none → mem_free p ok s = s) ∧
      (p ≠ 0 → n ≠ 0 → findAlloc p s.allocated_list = none →
        mem_resize p n ok ok2 s = (none, s)) ∧
      (mem_alloc n ok initState = (none, initState) ∧
        mem_free p ok initState = initState ∧
        mem_resize p n ok ok2 initState = (none, initState)) ∧
      (removeAlloc p (mem_free p true s).allocated_list = none →
        mem_free p ok (mem_free p true s) = mem_free p true s) := by
  refine ⟨?_, ?_, ?_, ?_, ?_, ?_, ⟨?_, ?_, ?_⟩, ?_⟩
  · intro h
    cases hmp : s.memory_pool <;> simp [mem_alloc, hmp, h]
  · cases hmp : s.memory_pool with
    | none => simp [mem_alloc, hmp]
    | some base =>
      cases hal : allocLoop n s.free_list <;> simp [mem_alloc, hmp, hal]
  · simp [mem_free]
  · intro h
    by_cases hp : p = 0
    · simp [mem_free, hp]
    · unfold mem_free
      rw [if_neg hp, if_pos h]
  · exact mem_free_not_found
  · intro hp hn hfa
    simp [mem_resize, hp, hn, hfa]
  · simp [mem_alloc, initState]
  · by_cases hp : p = 0
    · simp [mem_free, hp]
    · have hoob : p < poolBase initState ∨ poolBase initState + initState.pool_size ≤ p := by
        right
        show 0 + 0 ≤ p
        omega
      unfold mem_free
      rw [if_neg hp, if_pos hoob]
  · by_cases hp : p = 0
    · subst hp
      simp [mem_resize, mem_alloc, initState]
    · by_cases hn : n = 0
      · subst hn
        have hoob : p < poolBase initState ∨ poolBase initState + initState.pool_size ≤ p := by
          right
          show 0 + 0 ≤ p
          omega
        have hfree : mem_free p ok2 initState = initState := by
          unfold mem_free
          rw [if_neg hp, if_pos hoob]
        simp [mem_resize, hp, hfree]
      · have hfa : findAlloc p initState.allocated_list = none := rfl
        simp [mem_resize, hp, hn, hfa]
  · exact fun h => mem_free_not_found h

theorem C2_witness :
    mem_free 7 true (mem_init 1 4 initState) = mem_init 1 4 initState ∧
      mem_alloc 3 false (mem_init 1 4 initState) = (none, mem_init 1 4 initState) ∧
      mem_resize 2 5 true true (mem_init 1 4 initState) =
        (none, mem_init 1 4 initState) := by
  refine ⟨?_, ?_, ?_⟩
  · exact (C2_recoverable_failures (mem_init 1 4 initState) 3 7 true true).2.2.2.1 (by decide)
  · exact (C2_recoverable_failures (mem_init 1 4 initState) 3 7 true true).2.1
  · exact (C2_recoverable_failures (mem_init 1 4 initState) 5 2 true true).2.2.2.2.2.1
      (by decide) (by decide) (by decide)

/-- C5 (amended): whenever `alloc(n)` is served from a free block strictly
larger than `n`, that descriptor is reused in place with its start advanced by
exactly `n` and its size shrunk by exactly `n` (no descriptor is added to the
free list — the length is unchanged); and in every reachable state in which
all tracking-node reservations succeed, the free bytes plus the allocated
bytes equal the pool size, so the sum is preserved across every such
alloc/free/resize call. -/
theorem C5_split_conservation :
    (∀ (n : Nat) (l : List MemBlock) (p : Nat) (l' : List MemBlock),
      allocLoop n l = some (p, l') →
      ∃ pre b post, l = pre ++ b :: post ∧ p = b.start ∧ n ≤ b.size ∧
        (n < b.size →
          l' = pre ++ MemBlock.mk (b.start + n) (b.size - n) :: post ∧
            l'.length = l.length)) ∧
      ∀ s : MMState, ReachableOk s →
        totalSize s.free_list + totalSize s.allocated_list = s.pool_size := by
  constructor
  · intro n l p l' h
    obtain ⟨pre, b, post, hsplit, hpre, hfit, hp, hcase⟩ := allocLoop_eq h
    refine ⟨pre, b, post, hsplit, hp, hfit, ?_⟩
    intro hlt
    rcases hcase with ⟨_, hfl⟩ | ⟨heq, _⟩
    · constructor
      · exact hfl
      · rw [hfl, hsplit]
        simp
    · exact absurd hlt (by omega)
  · exact fun s h => reachable_total h

theorem C5_witness :
    totalSize (mem_init 1 4 initState).free_list +
        totalSize (mem_init 1 4 initState).allocated_list =
      (mem_init 1 4 initState).pool_size :=
  C5_split_conservation.2 (mem_init 1 4 initState)
    (ReachableOk.init 1 4 (by decide) (by decide))

/-- C6: after any successful free (null check, bounds check and allocated-list
search all passed, tracking reservation succeeded), no two consecutive blocks
of the free list are address-adjacent — the one-pass coalescing guarantees it
for any input list; and freeing the three previously split adjacent 10-byte
sub-blocks of a 30-byte pool in each of the six possible orders leaves exactly
the single free block spanning their union. -/
theorem C6_no_adjacent :
    (∀ (s : MMState) (p : Nat) (blk : MemBlock) (al : List MemBlock),
      p ≠ 0 → ¬(p < poolBase s ∨ poolBase s + s.pool_size ≤ p) →
      removeAlloc p s.allocated_list = some (blk, al) →
      NoAdjacent (mem_free p true s).free_list) ∧
      (freeSeq [1, 11, 21] threeSplitState).free_list = [⟨1, 30⟩] ∧
      (freeSeq [1, 21, 11] threeSplitState).free_list = [⟨1, 30⟩] ∧
      (freeSeq [11, 1, 21] threeSplitState).free_list = [⟨1, 30⟩] ∧
      (freeSeq [11, 21, 1] threeSplitState).free_list = [⟨1, 30⟩] ∧
      (freeSeq [21, 1, 11] threeSplitState).free_list = [⟨1, 30⟩] ∧
      (freeSeq [21, 11, 1] threeSplitState).free_list = [⟨1, 30⟩] := by
  refine ⟨?_, by decide, by decide, by decide, by decide, by decide, by decide⟩
  intro s p blk al hp hbound hra
  unfold mem_free
  rw [if_neg hp, if_neg hbound, hra]
  show NoAdjacent (mergePass (insertFree (MemBlock.mk p blk.size) s.free_list))
  cases hif : insertFree (MemBlock.mk p blk.size) s.free_list with
  | nil => simp [mergePass, NoAdjacent]
  | cons hd tl => exact mergeInto_noAdjacent tl hd

theorem C6_witness : NoAdjacent (mem_free 21 true threeSplitState).free_list :=
  C6_no_adjacent.1 threeSplitState 21 ⟨21, 10⟩ [⟨11, 10⟩, ⟨1, 10⟩]
    (by decide) (by decide) (by decide)

/-- C8 (amended): `resize(NULL, n)` is definitionally the same call as
`alloc(n)` — same return value and same state; and for every non-null pointer
`p`, `resize(p, 0)` returns a null result and has exactly the effect of
`free(p)` on the state. -/
theorem C8_resize_delegates (s : MMState) (n p : Nat) (ok1 ok2 : Bool) :
    mem_resize 0 n ok1 ok2 s = mem_alloc n ok1 s ∧
      (p ≠ 0 → mem_resize p 0 ok1 ok2 s = (none, mem_free p ok2 s)) := by
  constructor
  · simp [mem_resize]
  · intro hp
    simp [mem_resize, hp]

theorem C8_witness :
    mem_resize 5 0 true true (mem_init 1 8 initState) =
      (none, mem_free 5 true (mem_init 1 8 initState)) :=
  (C8_resize_delegates (mem_init 1 8 initState) 0 5 true true).2 (by decide)

/-- C4 (amended): on any initialized pool whose free list holds, in ascending
address order, blocks of sizes [10, 30, 20], `alloc(15)` selects the 30-byte
block (the second one) and returns its start address while splitting it in
place; and in general, for every positive request size `n ≥ 1` in a reachable
state, the block `alloc(n)` consumes is a fitting free block whose start
address is minimal among all fitting free blocks — the first in address order
with size ≥ n.  (For `n = 0` a zero-size block at a lower address can be
skipped; see the counterexample.) -/
theorem C4_first_fit :
    (∀ (s : MMState) (x y z : Nat), s.memory_pool.isSome →
      s.free_list = [⟨x, 10⟩, ⟨y, 30⟩, ⟨z, 20⟩] → x < y → y < z →
      (mem_alloc 15 true s).1 = some y ∧
        (mem_alloc 15 true s).2.free_list = [⟨x, 10⟩, ⟨y + 15, 15⟩, ⟨z, 20⟩]) ∧
      ∀ (s : MMState) (n p : Nat) (fl : List MemBlock), ReachableOk s → 1 ≤ n →
        allocLoop n s.free_list = some (p, fl) →
        (∃ b ∈ s.free_list, b.start = p ∧ n ≤ b.size) ∧
          ∀ c ∈ s.free_list, n ≤ c.size → p ≤ c.start := by
  constructor
  · intro s x y z hsome hfl hxy hyz
    cases hmp : s.memory_pool with
    | none => rw [hmp] at hsome; simp at hsome
    | some base =>
      have hal : allocLoop 15 s.free_list = some (y, [⟨x, 10⟩, ⟨y + 15, 15⟩, ⟨z, 20⟩]) := by
        rw [hfl]
        norm_num [allocLoop]
      constructor
      · simp [mem_alloc, hmp, hal]
      · simp [mem_alloc, hmp, hal]
  · intro s n p fl hreach hn hal
    obtain ⟨pre, b, post, hsplit, hpre, hfit, hp, _⟩ := allocLoop_eq hal
    have hord := (reachable_inv hreach).ord
    rw [hsplit] at hord
    rw [List.pairwise_append] at hord
    obtain ⟨_, hmid, _⟩ := hord
    rw [List.pairwise_cons] at hmid
    constructor
    · exact ⟨b, by rw [hsplit]; simp, hp.symm, hfit⟩
    · intro c hc hcfit
      rw [hsplit] at hc
      rcases List.mem_append.mp hc with hc | hc
      · exact absurd hcfit (by have := hpre c hc; omega)
      · rcases List.mem_cons.mp hc with rfl | hc
        · omega
        · have hbc := hmid.1 c hc (by omega)
          have h1 := hbc.1 (by omega)
          omega

theorem C4_witness :
    (mem_alloc 15 true ⟨some 1, 100, [⟨1, 10⟩, ⟨20, 30⟩, ⟨60, 20⟩], []⟩).1 = some 20 ∧
      (∃ b ∈ (mem_init 1 8 initState).free_list, b.start = 1 ∧ 3 ≤ b.size) := by
  constructor
  · exact (C4_first_fit.1 ⟨some 1, 100, [⟨1, 10⟩, ⟨20, 30⟩, ⟨60, 20⟩], []⟩ 1 20 60
      (by decide) rfl (by decide) (by decide)).1
  · exact (C4_first_fit.2 (mem_init 1 8 initState) 3 1 [⟨4, 5⟩]
      (ReachableOk.init 1 8 (by decide) (by decide)) (by decide) (by decide)).1

/-- C10 (amended): on an initialized pool whose free list is non-empty and
whose first block has positive size, `alloc(0)` succeeds, returns the start
address of that first free block, leaves every free-list descriptor unchanged
(the split advances the block by 0 bytes), and prepends a zero-size descriptor
recording that address to the allocated list, so a second `alloc(0)` returns
the same address; and on a pool whose free list is empty, `alloc(0)` fails
with a null result and no state change. -/
theorem C10_alloc_zero (s : MMState) (b : MemBlock) (rest : List MemBlock) :
    (s.memory_pool.isSome → s.free_list = b :: rest → 0 < b.size →
      mem_alloc 0 true s =
        (some b.start,
          { s with allocated_list := MemBlock.mk b.start 0 :: s.allocated_list }) ∧
        (mem_alloc 0 true (mem_alloc 0 true s).2).1 = some b.start) ∧
      (s.free_list = [] → mem_alloc 0 true s = (none, s)) := by
  constructor
  · intro hsome hfl hbpos
    cases hmp : s.memory_pool with
    | none => rw [hmp] at hsome; simp at hsome
    | some base =>
      have hmk : MemBlock.mk (b.start + 0) (b.size - 0) = b := by
        have h1 : b.start + 0 = b.start := by omega
        have h2 : b.size - 0 = b.size := by omega
        rw [h1, h2]
      have hal : allocLoop 0 s.free_list = some (b.start, b :: rest) := by
        rw [hfl]
        unfold allocLoop
        rw [if_pos (Nat.zero_le b.size), if_pos hbpos, hmk]
      have hstep : mem_alloc 0 true s =
          (some b.start,
            { s with free_list := b :: rest,
                     allocated_list := MemBlock.mk b.start 0 :: s.allocated_list }) := by
        simp [mem_alloc, hmp, hal]
      have hfree_eq :
          ({ s with free_list := b :: rest,
                    allocated_list := MemBlock.mk b.start 0 :: s.allocated_list } : MMState) =
            { s with allocated_list := MemBlock.mk b.start 0 :: s.allocated_list } := by
        rw [← hfl]
      constructor
      · rw [hstep, hfree_eq, hmp]
      · rw [hstep]
        have hal2 : allocLoop 0 (b :: rest) = some (b.start, b :: rest) := by
          unfold allocLoop
          rw [if_pos (Nat.zero_le b.size), if_pos hbpos, hmk]
        simp [mem_alloc, hmp, hal2]
  · intro hfl
    cases hmp : s.memory_pool with
    | none => simp [mem_alloc, hmp]
    | some base => simp [mem_alloc, hmp, hfl, allocLoop]

theorem C10_witness :
    mem_alloc 0 true (mem_init 1 8 initState) =
      (some 1, ⟨some 1, 8, [⟨1, 8⟩], [⟨1, 0⟩]⟩) ∧
      (mem_alloc 0 true (mem_alloc 0 true (mem_init 1 8 initState)).2).1 = some 1 := by
  have h := (C10_alloc_zero (mem_init 1 8 initState) ⟨1, 8⟩ []).1 (by decide) rfl (by decide)
  exact ⟨h.1, h.2⟩

/-- C7 (amended): on every pool state satisfying the free-list
well-formedness hypotheses (initialized, nonzero base, nonempty in-pool
blocks, address-ordered without overlap), for every request size n ≥ 1, a
successful `p := alloc(n)` immediately followed by `free(p)` restores the
total number of free bytes, and if the free list was a single block before
the pair of calls it is that same single block afterwards.  (For n = 0 the
round trip leaves an extra zero-size descriptor; see the counterexample.) -/
theorem C7_roundtrip (s : MMState) (n p : Nat) (hwf : WellFormedFree s) (hn : 1 ≤ n)
    (hsucc : (mem_alloc n true s).1 = some p) :
    totalSize (mem_free p true (mem_alloc n true s).2).free_list =
        totalSize s.free_list ∧
      ∀ b : MemBlock, s.free_list = [b] →
        (mem_free p true (mem_alloc n true s).2).free_list = [b] := by
  obtain ⟨hsome, hbase, hblocks, hchain⟩ := hwf
  cases hmp : s.memory_pool with
  | none => rw [hmp] at hsome; simp at hsome
  | some base =>
    cases hal : allocLoop n s.free_list with
    | none => simp [mem_alloc, hmp, hal] at hsucc
    | some pr =>
      rcases pr with ⟨p0, fl⟩
      have hp0 : p0 = p := by simpa [mem_alloc, hmp, hal] using hsucc
      subst hp0
      obtain ⟨pre, b, post, hsplit, hpre, hfit, hpstart, hcase⟩ := allocLoop_eq hal
      have hbmem : b ∈ s.free_list := by rw [hsplit]; simp
      obtain ⟨hbpos, hbin1, hbin2⟩ := hblocks b hbmem
      have hpz : ¬p0 = 0 := by omega
      have hb2 : ¬(p0 < poolBase s ∨ poolBase s + s.pool_size ≤ p0) := by
        push_neg
        omega
      have hstate : (mem_alloc n true s).2 =
          { s with free_list := fl,
                   allocated_list := MemBlock.mk p0 n :: s.allocated_list } := by
        simp [mem_alloc, hmp, hal]
      have hb2' : ¬(p0 < poolBase (mem_alloc n true s).2 ∨
          poolBase (mem_alloc n true s).2 + (mem_alloc n true s).2.pool_size ≤ p0) := by
        unfold poolBase at hb2 ⊢
        rw [(mem_alloc_meta n true s).1, (mem_alloc_meta n true s).2]
        exact hb2
      have hta : (mem_alloc n true s).2.allocated_list =
          MemBlock.mk p0 n :: s.allocated_list := by
        rw [hstate]
      have htf : (mem_alloc n true s).2.free_list = fl := by
        rw [hstate]
      have hrm : removeAlloc p0 (MemBlock.mk p0 n :: s.allocated_list) =
          some (MemBlock.mk p0 n, s.allocated_list) := by
        unfold removeAlloc
        rw [if_pos rfl]
      have hfl2 : (mem_free p0 true (mem_alloc n true s).2).free_list =
          mergePass (insertFree (MemBlock.mk p0 n) fl) := by
        unfold mem_free
        rw [if_neg hpz, if_neg hb2', hta, hrm]
        show mergePass (insertFree (MemBlock.mk p0 n) (mem_alloc n true s).2.free_list) = _
        rw [htf]
      constructor
      · rw [hfl2, mergePass_totalSize, insertFree_totalSize]
        have htot := allocLoop_totalSize hal
        have hsz : (MemBlock.mk p0 n).size = n := rfl
        rw [hsz]
        omega
      · intro b0 hfl0
        rw [hfl0] at hsplit
        rcases pre with _ | ⟨c, pre'⟩
        · simp only [List.nil_append, List.cons.injEq] at hsplit
          obtain ⟨hb0, hpost⟩ := hsplit
          subst hb0
          rcases hcase with ⟨hlt, hfl'⟩ | ⟨heq, hfl'⟩
          · rw [hfl2, hfl', ← hpost]
            simp only [List.nil_append]
            have hins : insertFree (MemBlock.mk p0 n)
                [MemBlock.mk (b0.start + n) (b0.size - n)] =
                [MemBlock.mk p0 n, MemBlock.mk (b0.start + n) (b0.size - n)] := by
              simp only [insertFree]
              rw [if_pos (show (MemBlock.mk p0 n).start <
                (MemBlock.mk (b0.start + n) (b0.size - n)).start from by
                  show p0 < b0.start + n
                  omega)]
            rw [hins]
            show mergeInto (MemBlock.mk p0 n) [MemBlock.mk (b0.start + n) (b0.size - n)] = [b0]
            simp only [mergeInto]
            rw [if_pos (show (MemBlock.mk p0 n).start + (MemBlock.mk p0 n).size =
              (MemBlock.mk (b0.start + n) (b0.size - n)).start from by
                show p0 + n = b0.start + n
                omega)]
            show [MemBlock.mk p0 (n + (b0.size - n))] = [b0]
            have hfin : MemBlock.mk p0 (n + (b0.size - n)) = b0 := by
              have h2 : n + (b0.size - n) = b0.size := by omega
              rw [hpstart, h2]
            rw [hfin]
          · rw [hfl2, hfl', ← hpost]
            simp only [List.nil_append, List.append_nil]
            show mergeInto (MemBlock.mk p0 n) [] = [b0]
            simp only [mergeInto]
            have hfin : MemBlock.mk p0 n = b0 := by
              rw [hpstart, ← heq]
            rw [hfin]
        · exfalso
          simp only [List.cons_append, List.cons.injEq] at hsplit
          have h2 := hsplit.2
          simp at h2

theorem C7_witness :
    totalSize (mem_free 1 true (mem_alloc 3 true (mem_init 1 8 initState)).2).free_list =
        totalSize (mem_init 1 8 initState).free_list ∧
      (mem_free 1 true (mem_alloc 3 true (mem_init 1 8 initState)).2).free_list =
        [⟨1, 8⟩] := by
  have hwf : WellFormedFree (mem_init 1 8 initState) := by
    refine ⟨by decide, by decide, by decide, ?_⟩
    show List.Chain' _ [(⟨1, 8⟩ : MemBlock)]
    exact List.chain'_singleton _
  have h := C7_roundtrip (mem_init 1 8 initState) 3 1 hwf (by decide) (by decide)
  exact ⟨h.1, h.2 ⟨1, 8⟩ rfl⟩
